import Mathlib

/-!
Verification of the numeric conversion engine of konvert (src/konvert.py):
a shallow embedding of the parsing, base decoding/encoding, unit scaling and
pipeline code, together with theorems settling the specified properties.
Python `float` arithmetic is modelled exactly as binary64 rationals with
round-to-nearest, ties-to-even.
-/

/-- Error kinds corresponding to the Python exceptions raised by the engine. -/
inductive PyErr where
  /-- `IndexError` (out-of-bounds string index, e.g. `val[0]` on an empty string). -/
  | indexError
  /-- `ValueError` raised by `str.index` when a character is not in `ALNUM_LIST`. -/
  | invalidDigit
  /-- `ValueError("Number ... is not of base ...")` raised by `base_to_int`. -/
  | digitOutOfRange
  /-- `argparse.ArgumentTypeError` from `type_alphanumeric` (InvalidNumberLiteral). -/
  | invalidNumberLiteral
  /-- `argparse.ArgumentTypeError` from `type_base` (UnsupportedBase). -/
  | unsupportedBase
  deriving DecidableEq

deriving instance DecidableEq for Except

/-- Alphabet `ALNUM_LIST = "0123456789abcdefghijklmnopqrstuvwxyz"` (konvert.py line 580). -/
def ALNUM_LIST : List Char := "0123456789abcdefghijklmnopqrstuvwxyz".data

/-- Delimiter constant `DELIMITER = "."` (konvert.py line 581). -/
def DELIMITER : Char := '.'

/-- Lookup `ALNUM_LIST.index(c)`: index of `c` in the alphabet, or `none`
(Python raises `ValueError`) when `c` is not an alphabet symbol. -/
def alnumIndex (c : Char) : Option ℕ := ALNUM_LIST.findIdx? (fun x => x = c)

/-- Indexing `ALNUM_LIST[n]`: the symbol for digit value `n`.  Out-of-range access would be
an `IndexError` in Python; it is unreachable in every use proved below (digit
values are always `< base ≤ 36`), so a dummy `'?'` stands for that case. -/
def alnumChar (n : ℕ) : Char := ALNUM_LIST.getD n '?'

/-- Loop of `base_to_int` (konvert.py lines 739-746): Horner evaluation
`res = n + base * res` over the characters, failing when a character is not in
the alphabet (`ValueError` from `.index`) or its value `n` has `n + 1 > base`. -/
def base_to_int_go (base : ℕ) : List Char → ℕ → Except PyErr ℕ
  | [], res => .ok res
  | c :: rest, res =>
    match alnumIndex c with
    | none => .error .invalidDigit
    | some n => if base < n + 1 then .error .digitOutOfRange
                else base_to_int_go base rest (n + base * res)

/-- Decoder `base_to_int(num, base)` (konvert.py lines 739-746). -/
def base_to_int (num : String) (base : ℕ) : Except PyErr ℕ :=
  base_to_int_go base num.data 0

/-- Loop of `get_abs` (konvert.py lines 589-592): consume leading `+`/`-`
characters counting the minus signs; `val[0]` on an exhausted string raises
`IndexError`. -/
def get_abs_go : List Char → ℕ → Except PyErr (List Char × ℕ)
  | [], _ => .error .indexError
  | c :: rest, negativeCount =>
    if c = '-' then get_abs_go rest (negativeCount + 1)
    else if c = '+' then get_abs_go rest negativeCount
    else .ok (c :: rest, negativeCount)

/-- Sign parser `get_abs(val)` (konvert.py lines 586-595): strips the leading sign run and
reports whether the count of `-` characters is odd. -/
def get_abs (val : List Char) : Except PyErr (List Char × Bool) := do
  let (v, negativeCount) ← get_abs_go val 0
  pure (v, negativeCount % 2 = 1)

/-- Python `str.lower()` on one character, restricted to ASCII (every token the
program handles is ASCII). -/
def pyLowerChar (c : Char) : Char :=
  if 'A' ≤ c ∧ c ≤ 'Z' then Char.ofNat (c.toNat + 32) else c

/-- Python `str.lower()` restricted to ASCII strings. -/
def pyLower (s : List Char) : List Char := s.map pyLowerChar

/-- Python `str.strip()` whitespace test, restricted to the ASCII whitespace
characters. -/
def isPySpace (c : Char) : Bool :=
  c = ' ' ∨ c = '\t' ∨ c = '\n' ∨ c = '\r' ∨ c = '\x0b' ∨ c = '\x0c'

/-- Python `str.strip()`: drop leading and trailing whitespace. -/
def pyStrip (s : List Char) : List Char :=
  ((s.dropWhile isPySpace).reverse.dropWhile isPySpace).reverse

/-- Literal parser `type_alphanumeric(val)` (konvert.py lines 598-615).  Returns the digit
stream with every delimiter removed, the delimiter offset
(`len(after removal) - position of first delimiter`), and the sign.  The
Python subtraction is on `int`; the first delimiter position is at most the
length after removal (all characters before it survive the removal), so the
truncated `ℕ` subtraction agrees with it. -/
def type_alphanumeric (val : String) : Except PyErr (String × ℕ × Bool) := do
  let (val_form, is_negative) ← get_abs (pyLower (pyStrip val.data))
  match val_form.findIdx? (fun c => c = DELIMITER) with
  | none =>
    if val_form.all (fun c => ALNUM_LIST.contains c) then
      .ok (String.mk val_form, 0, is_negative)
    else .error .invalidNumberLiteral
  | some delimiter_pos =>
    let removed := val_form.filter (fun c => ¬ c = DELIMITER)
    let delimiter_offset := removed.length - delimiter_pos
    if removed.all (fun c => ALNUM_LIST.contains c) then
      .ok (String.mk removed, delimiter_offset, is_negative)
    else .error .invalidNumberLiteral



/-! ### Exact rational helpers

`Rat.add/sub/mul/inv` are `@[irreducible]` in the library, which blocks kernel
evaluation of concrete instances (`decide`).  The helpers below compute the
same exact rational operations through `Rat.divInt`, which does reduce; the
`_eq` lemmas let the abstract proofs use the ordinary field operations. -/

/-- Exact rational multiplication, kernel-reducible. -/
def qmul (a b : ℚ) : ℚ := Rat.divInt (a.num * b.num) ((a.den : ℤ) * b.den)

/-- Exact rational division (`qdiv a 0 = 0`, as for `/`), kernel-reducible. -/
def qdiv (a b : ℚ) : ℚ := Rat.divInt (a.num * b.den) ((a.den : ℤ) * b.num)

/-- Exact rational subtraction, kernel-reducible. -/
def qsub (a b : ℚ) : ℚ := Rat.divInt (a.num * b.den - b.num * a.den) ((a.den : ℤ) * b.den)

/-- Exact rational inverse (`qinv 0 = 0`), kernel-reducible. -/
def qinv (a : ℚ) : ℚ := Rat.divInt (a.den : ℤ) a.num

/-! ### Binary64 model

The pipeline (konvert.py `main`, lines 845-867) computes with Python `float`s:
`shift_right` is a true division, the unit calculation `num * fu / tu` produces
a float, and `float_to_base` iterates float multiply/subtract.  We model a
float value as the exact rational it denotes, and model each float operation
as the exact rational operation followed by rounding to the nearest rational
of the form `m * 2^e` with `|m| < 2^53` (round-to-nearest, ties-to-even).
Exponent over/underflow and subnormal rounding are not modelled: every value
arising in the theorems below is far inside the normal binary64 range. -/

/-- Largest `e` with `2^e ≤ n` (for `1 ≤ n ≤ fuel`; `0` otherwise).  Fuel-based
so that it evaluates by kernel reduction. -/
def natLog2 : ℕ → ℕ → ℕ
  | 0, _ => 0
  | fuel + 1, n => if n < 2 then 0 else natLog2 fuel (n / 2) + 1

/-- The binary exponent of a positive rational: the unique `e : ℤ` with
`2^e ≤ q < 2^(e+1)` (junk at `q ≤ 0`). -/
def findExp (q : ℚ) : ℤ :=
  if 1 ≤ q then (natLog2 ⌊q⌋.toNat ⌊q⌋.toNat : ℤ)
  else
    let m := ⌊qinv q⌋.toNat
    let f := natLog2 m m
    if qmul q ((2 ^ f : ℕ) : ℚ) = 1 then -(f : ℤ) else -(f : ℤ) - 1

/-- Round a rational to the nearest integer, ties to even. -/
def roundHalfEven (x : ℚ) : ℤ :=
  let n := ⌊x⌋
  if qsub x (n : ℚ) < mkRat 1 2 then n
  else if mkRat 1 2 < qsub x (n : ℚ) then n + 1
  else if n % 2 = 0 then n else n + 1

/-- Round a positive rational to 53 significant bits at binary exponent `e`. -/
def roundAt (q : ℚ) (e : ℤ) : ℚ :=
  if e ≤ 52 then
    let k := (52 - e).toNat
    qdiv ((roundHalfEven (qmul q ((2 ^ k : ℕ) : ℚ)) : ℤ) : ℚ) ((2 ^ k : ℕ) : ℚ)
  else
    let k := (e - 52).toNat
    qmul ((roundHalfEven (qdiv q ((2 ^ k : ℕ) : ℚ)) : ℤ) : ℚ) ((2 ^ k : ℕ) : ℚ)

/-- Round an exact rational to the nearest binary64 value (as a rational):
round-to-nearest, ties-to-even, 53-bit significand, unbounded exponent. -/
def roundF (q : ℚ) : ℚ :=
  if q = 0 then 0
  else if 0 < q then roundAt q (findExp q)
  else -roundAt (-q) (findExp (-q))

/-- Python float multiplication: exact product, rounded. -/
def fmul (a b : ℚ) : ℚ := roundF (qmul a b)

/-- Python float true division `/`: exact quotient, rounded. -/
def fdiv (a b : ℚ) : ℚ := roundF (qdiv a b)

/-- Python float subtraction: exact difference, rounded. -/
def fsub (a b : ℚ) : ℚ := roundF (qsub a b)

/-- Fraction shift `shift_right(num, base, offset) = num / base**offset` (konvert.py lines
770-771): `num` and `base**offset` are exact ints, `/` rounds once. -/
def shift_right (num : ℕ) (base : ℕ) (offset : ℕ) : ℚ :=
  fdiv (num : ℚ) (((base ^ offset : ℕ)) : ℚ)

/-- Truncation `float_to_int(num)` (konvert.py lines 725-736).  The Python code renders
`num` with `str`, drops everything from the delimiter on, and re-parses the
decimal digits.  For a nonnegative `int` argument this parses the full decimal
representation, i.e. it is the identity; for a nonnegative `float` argument
rendered without an exponent the digits before the point are exactly `⌊num⌋`,
because `repr` round-trips and no decimal literal on the other side of an
integer can parse back to `num`.  The floor model is therefore valid only for
float arguments rendered in fixed notation: floats `≥ 10^16` and nonzero
floats `< 10^-4` are rendered in exponent form (`'1e+16'`, `'1e-05'`), where
the code instead crashes in `ALNUM_LIST.index` on `'+'`/`'-'` or mis-parses
the mantissa; every theorem below that feeds a float into this function
restricts it to the fixed-notation range.  Negative arguments recurse through
`-(float_to_int(-num))`, whose inner call takes the nonnegative branch. -/
def float_to_int (num : ℚ) : ℤ :=
  if num < 0 then -(⌊-num⌋) else ⌊num⌋

/-- Integer-part loop of `float_to_base` (konvert.py lines 754-756): extract
base-`base` digits least-significant first (`res = ALNUM_LIST[...] + res`
prepends, so the final string is the reverse of this list).  Structural fuel
(`n` itself suffices) keeps the definition kernel-reducible; the loop runs
only while `num_whole > 0`. -/
def int_digits_lsb : ℕ → ℕ → ℕ → List ℕ
  | 0, _, _ => []
  | fuel + 1, n, base => if 0 < n then n % base :: int_digits_lsb fuel (n / base) base else []

/-- Fractional loop of `float_to_base` (konvert.py lines 758-765): at most 10
rounds of float multiply-and-extract, stopping early when the remainder is
exactly `0`.  Returns the extracted digit values (in emission order) and the
final remainder. -/
def frac_digits : ℕ → ℚ → ℕ → List ℕ × ℚ
  | 0, num_decimals, _ => ([], num_decimals)
  | fuel + 1, num_decimals, base =>
    if num_decimals = 0 then ([], num_decimals)
    else
      let prod := fmul num_decimals (base : ℚ)
      let digit := float_to_int prod
      let rest := frac_digits fuel (fsub prod (digit : ℚ)) base
      (digit.toNat :: rest.1, rest.2)

/-- Encoder `float_to_base(num, base)` (konvert.py lines 749-767). `num_whole % base`
is an `int`, so the inner `float_to_int` is the identity on it; the loop is
the pure digit extraction `int_digits_lsb` (reversed, since the Python code
prepends).  A negative `num_whole` skips the `while` loop, matching `.toNat`. -/
def float_to_base (num : ℚ) (base : ℕ) : String :=
  let num_whole := float_to_int num
  let num_decimals := fsub num (num_whole : ℚ)
  let res := String.mk (((int_digits_lsb num_whole.toNat num_whole.toNat base).reverse).map alnumChar)
  let res_decimals := String.mk ((frac_digits 10 num_decimals base).1.map alnumChar)
  if res_decimals ≠ "" then res ++ String.mk [DELIMITER] ++ res_decimals else res

/-- The conversion pipeline of `main` (konvert.py lines 845-867) after
argument parsing, starting from the parsed `(num, delimiter_offset,
is_negative)` triple: decode, shift for a fractional literal, unit scaling
`num * from_unit / to_unit` (an exact `int * int` product when no shift
happened, then one rounded division; float multiply and divide otherwise),
encode, leading-zero fixup (`num[0]` raises `IndexError` on an empty string),
sign restoration.  The identical code is at lines 499-521 of the web handler. -/
def convert_parsed (num : String) (delimiter_offset : ℕ) (is_negative : Bool)
    (from_base to_base from_unit to_unit : ℕ) : Except PyErr String := do
  let n ← base_to_int num from_base
  let scaled : ℚ :=
    if delimiter_offset = 0 then fdiv (((n * from_unit : ℕ)) : ℚ) (to_unit : ℚ)
    else fdiv (fmul (shift_right n from_base delimiter_offset) (from_unit : ℚ)) (to_unit : ℚ)
  let s := float_to_base scaled to_base
  match s.data with
  | [] => .error .indexError
  | c :: _ =>
    let s₂ := if c = DELIMITER then "0" ++ s else s
    .ok (if is_negative then "-" ++ s₂ else s₂)

/-- The full pipeline from the raw input literal (argument parsing via
`type_alphanumeric`, then `main`'s conversion). -/
def convert (input : String) (from_base to_base from_unit to_unit : ℕ) :
    Except PyErr String := do
  let (num, delimiter_offset, is_negative) ← type_alphanumeric input
  convert_parsed num delimiter_offset is_negative from_base to_base from_unit to_unit

/-- The `BASES` multi-key dictionary flattened to (alias, value) pairs in
insertion order (konvert.py lines 38-74 and the `MultiKeyStaticDict`
construction at lines 17-29): every alias key maps to its base value. -/
def BASES_LIST : List (String × ℕ) :=
  [("binary", 2), ("bin", 2), ("ternary", 3), ("quaternary", 4), ("quinary", 5),
   ("senary", 6), ("seximal", 6), ("septimal", 7), ("septinary", 7), ("septenary", 7),
   ("octal", 8), ("oct", 8), ("nonary", 9), ("nonal", 9),
   ("decimal", 10), ("dec", 10), ("denary", 10),
   ("undecimal", 11), ("unodecimal", 11), ("undenary", 11),
   ("duodecimal", 12), ("dozenal", 12), ("tredecimal", 13), ("tridecimal", 13),
   ("quattuordecimal", 14), ("quadrodecimal", 14), ("tetradecimal", 14),
   ("quindecimal", 15), ("pentadecimal", 15),
   ("hexadecimal", 16), ("hex", 16), ("sexadecimal", 16), ("sedecimal", 16),
   ("septendecimal", 17), ("heptadecimal", 17), ("octodecimal", 18),
   ("undevicesimal", 19), ("nonadecimal", 19), ("enneadecimal", 19),
   ("vigesimal", 20), ("unvigesimal", 21), ("duovigesimal", 22), ("trivigesimal", 23),
   ("quadravigesimal", 24), ("tetravigesimal", 24), ("pentavigesimal", 25),
   ("hexavigesimal", 26), ("septemvigesimal", 27), ("heptavigesimal", 27),
   ("octovigesimal", 28), ("enneavigesimal", 29), ("trigesimal", 30),
   ("untrigesimal", 31), ("duotrigesimal", 32), ("tritrigesimal", 33),
   ("tetratrigesimal", 34), ("pentatrigesimal", 35), ("hexatrigesimal", 36)]

/-- Bound `BASE_MIN = 2` (konvert.py line 582). -/
def BASE_MIN : ℕ := 2

/-- Bound `BASE_MAX = 36` (konvert.py line 583). -/
def BASE_MAX : ℕ := 36

/-- Base resolver `type_base(val)` (konvert.py lines 618-630): a known base name (looked up
after `val.lower()`) resolves from the table; otherwise the token is decoded
as a base-10 numeral by `base_to_int` (whose `ValueError`s propagate), and a
decoded value outside `[BASE_MIN, BASE_MAX]` raises the
`argparse.ArgumentTypeError` ("Base ... is not supported", the
`UnsupportedBase` failure). -/
def type_base (val : String) : Except PyErr ℕ :=
  match BASES_LIST.lookup (String.mk (pyLower val.data)) with
  | some b => .ok b
  | none => do
    let number_base ← base_to_int val 10  -- BASES["decimal"] = 10
    if BASE_MIN ≤ number_base ∧ number_base ≤ BASE_MAX then .ok number_base
    else .error .unsupportedBase

/-! ### Digit machinery: relating the Horner decode and the digit-extraction
encode to `Nat.digits` / `Nat.ofDigits`. -/

/-- The digit value of an alphabet character (`0` as junk default for
characters outside the alphabet). -/
def dval (c : Char) : ℕ := (alnumIndex c).getD 0

/-- Horner evaluation of most-significant-first digit values, mirroring the
accumulator of `base_to_int`. -/
def hornerVal (base : ℕ) (ds : List ℕ) (acc : ℕ) : ℕ :=
  ds.foldl (fun a n => n + base * a) acc

theorem qmul_eq (a b : ℚ) : qmul a b = a * b := by
  rw [qmul, ← Rat.divInt_mul_divInt a.num b.num (by exact_mod_cast a.den_nz)
    (by exact_mod_cast b.den_nz), Rat.num_divInt_den, Rat.num_divInt_den]

theorem qsub_eq (a b : ℚ) : qsub a b = a - b := by
  rw [qsub, ← Rat.divInt_sub_divInt a.num b.num (by exact_mod_cast a.den_nz)
    (by exact_mod_cast b.den_nz), Rat.num_divInt_den, Rat.num_divInt_den]

theorem qinv_eq (a : ℚ) : qinv a = a⁻¹ := by
  rcases eq_or_ne a 0 with rfl | ha
  · simp [qinv]
  · rw [qinv, Rat.divInt_eq_div]
    push_cast
    conv_rhs => rw [← Rat.num_div_den a, inv_div]

theorem qdiv_eq (a b : ℚ) : qdiv a b = a / b := by
  rcases eq_or_ne b 0 with rfl | hb
  · simp [qdiv]
  · rw [qdiv, Rat.divInt_eq_div]
    push_cast
    conv_rhs => rw [← Rat.num_div_den a, ← Rat.num_div_den b]
    have ha' : (a.den : ℚ) ≠ 0 := by exact_mod_cast a.den_nz
    have hb' : (b.den : ℚ) ≠ 0 := by exact_mod_cast b.den_nz
    have hbn : (b.num : ℚ) ≠ 0 := by exact_mod_cast Rat.num_ne_zero.2 hb
    field_simp


theorem alnum_facts : ∀ c ∈ ALNUM_LIST,
    alnumIndex c = some (dval c) ∧ dval c < 36 ∧ alnumChar (dval c) = c := by decide

theorem alnum_char_facts : ∀ d, d < 36 →
    alnumIndex (alnumChar d) = some d ∧ alnumChar d ≠ DELIMITER ∧
      alnumChar d ∈ ALNUM_LIST ∧ dval (alnumChar d) = d := by decide

theorem dval_zero_iff : ∀ c ∈ ALNUM_LIST, (dval c = 0 ↔ c = '0') := by decide

theorem hornerVal_eq_ofDigits (base : ℕ) (ds : List ℕ) (acc : ℕ) :
    hornerVal base ds acc = Nat.ofDigits base ds.reverse + acc * base ^ ds.length := by
  induction ds generalizing acc with
  | nil => simp [hornerVal, Nat.ofDigits]
  | cons d tl ih =>
    simp only [hornerVal, List.foldl_cons, List.reverse_cons, List.length_cons] at *
    rw [ih, Nat.ofDigits_append]
    simp [Nat.ofDigits, pow_succ]
    ring

/-- `base_to_int` succeeds on alphabet characters whose values are below the
base, and computes the Horner value. -/
theorem base_to_int_go_ok (base : ℕ) (cs : List Char) (acc : ℕ)
    (h : ∀ c ∈ cs, c ∈ ALNUM_LIST ∧ dval c < base) :
    base_to_int_go base cs acc = .ok (hornerVal base (cs.map dval) acc) := by
  induction cs generalizing acc with
  | nil => simp [base_to_int_go, hornerVal]
  | cons c tl ih =>
    obtain ⟨hmem, hlt⟩ := h c (List.mem_cons_self c tl)
    obtain ⟨hidx, -, -⟩ := alnum_facts c hmem
    simp only [base_to_int_go, hidx]
    rw [if_neg (by omega)]
    rw [ih _ (fun x hx => h x (List.mem_cons_of_mem _ hx))]
    simp [hornerVal]

theorem int_digits_lsb_eq_digits (base : ℕ) (hb : 2 ≤ base) :
    ∀ fuel n, n ≤ fuel → int_digits_lsb fuel n base = Nat.digits base n := by
  intro fuel
  induction fuel with
  | zero => intro n hn; interval_cases n; simp [int_digits_lsb]
  | succ fuel ih =>
    intro n hn
    by_cases hpos : 0 < n
    · have hdiv : n / base < n := Nat.div_lt_self hpos (by omega)
      rw [int_digits_lsb, if_pos hpos, Nat.digits_def' (by omega) hpos,
        ih (n / base) (by omega)]
    · have : n = 0 := by omega
      subst this
      simp [int_digits_lsb]

theorem list_map_self {α : Type} (f : α → α) (l : List α) (h : ∀ x ∈ l, f x = x) :
    l.map f = l := by
  induction l with
  | nil => rfl
  | cons x tl ih =>
    rw [List.map_cons, h x (List.mem_cons_self x tl),
      ih (fun y hy => h y (List.mem_cons_of_mem _ hy))]

theorem ofDigits_zeros (b : ℕ) (t : List ℕ) (h : ∀ x ∈ t, x = 0) :
    Nat.ofDigits b t = 0 := by
  induction t with
  | nil => simp [Nat.ofDigits]
  | cons x tl ih =>
    rw [Nat.ofDigits_cons, h x (List.mem_cons_self x tl),
      ih (fun y hy => h y (List.mem_cons_of_mem _ hy))]
    simp

theorem ofDigits_append_zeros (b : ℕ) (L t : List ℕ) (h : ∀ x ∈ t, x = 0) :
    Nat.ofDigits b (L ++ t) = Nat.ofDigits b L := by
  rw [Nat.ofDigits_append, ofDigits_zeros b t h]
  simp

theorem roundF_zero : roundF 0 = 0 := by simp [roundF]

theorem float_to_int_natCast (v : ℕ) : float_to_int (v : ℚ) = (v : ℤ) := by
  rw [float_to_int, if_neg (not_lt.2 (by positivity)), Int.floor_natCast]

theorem fsub_self_nat (v : ℕ) : fsub (v : ℚ) ((v : ℤ) : ℚ) = 0 := by
  rw [fsub, qsub_eq]
  push_cast
  simp [roundF_zero]

theorem frac_digits_zero (fuel b : ℕ) : frac_digits fuel 0 b = ([], 0) := by
  cases fuel <;> simp [frac_digits]

/-- On an exact nonnegative integer value, `float_to_base` emits no fractional
digits and renders the standard base-`b` digit string. -/
theorem float_to_base_nat (v b : ℕ) (hb : 2 ≤ b) :
    float_to_base (v : ℚ) b = String.mk ((Nat.digits b v).reverse.map alnumChar) := by
  rw [float_to_base]
  simp only [float_to_int_natCast, fsub_self_nat, frac_digits_zero, Int.toNat_natCast]
  rw [int_digits_lsb_eq_digits b hb v v le_rfl]
  simp

/-- Decoding the canonical digit rendering gives the value back. -/
theorem encode_decode (v b : ℕ) (hb : 2 ≤ b) (hb36 : b ≤ 36) :
    base_to_int (String.mk ((Nat.digits b v).reverse.map alnumChar)) b = .ok v := by
  rw [base_to_int]
  have hmem : ∀ c ∈ (Nat.digits b v).reverse.map alnumChar, c ∈ ALNUM_LIST ∧ dval c < b := by
    intro c hc
    obtain ⟨d, hd, rfl⟩ := List.mem_map.1 hc
    have hdb : d < b := Nat.digits_lt_base (by omega) (List.mem_reverse.1 hd)
    obtain ⟨-, -, hmem', hdval⟩ := alnum_char_facts d (by omega)
    exact ⟨hmem', by omega⟩
  rw [base_to_int_go_ok b _ 0 hmem]
  congr 1
  have hmap : ((Nat.digits b v).reverse.map alnumChar).map dval = (Nat.digits b v).reverse := by
    rw [List.map_map]
    apply list_map_self
    intro d hd
    have hdb : d < b := Nat.digits_lt_base (by omega) (List.mem_reverse.1 hd)
    exact (alnum_char_facts d (by omega)).2.2.2
  rw [hmap, hornerVal_eq_ofDigits]
  simp [Nat.ofDigits_digits]

/-- Encoding the Horner value of a valid digit-character string reproduces the
string with its leading zeros stripped. -/
theorem decode_encode (b : ℕ) (hb : 2 ≤ b) (hb36 : b ≤ 36) (cs : List Char)
    (hvalid : ∀ c ∈ cs, c ∈ ALNUM_LIST ∧ dval c < b)
    (hnz : ∃ c ∈ cs, c ≠ '0') :
    float_to_base ((hornerVal b (cs.map dval) 0 : ℕ) : ℚ) b =
      String.mk (cs.dropWhile (fun c => c = '0')) := by
  rw [float_to_base_nat _ b hb]
  have hds' : cs.dropWhile (fun c => c = '0') ≠ [] := by
    rw [Ne, List.dropWhile_eq_nil_iff]
    push_neg
    obtain ⟨c, hc, hcne⟩ := hnz
    exact ⟨c, hc, by simpa using hcne⟩
  -- digit values, most significant first, with leading zeros stripped
  have key : Nat.digits b (hornerVal b (cs.map dval) 0) =
      ((cs.dropWhile (fun c => c = '0')).map dval).reverse := by
    rw [hornerVal_eq_ofDigits]
    simp only [mul_one, pow_zero, add_zero, Nat.zero_mul, zero_mul]
    have hsplit : cs = cs.takeWhile (fun c => c = '0') ++ cs.dropWhile (fun c => c = '0') :=
      (List.takeWhile_append_dropWhile _ _).symm
    have hofd : Nat.ofDigits b (cs.map dval).reverse =
        Nat.ofDigits b ((cs.dropWhile (fun c => c = '0')).map dval).reverse := by
      conv_lhs => rw [hsplit]
      rw [List.map_append, List.reverse_append]
      apply ofDigits_append_zeros
      intro x hx
      obtain ⟨c, hc, rfl⟩ := List.mem_map.1 (List.mem_reverse.1 hx)
      have hc0 : c = '0' := by
        have := List.mem_takeWhile_imp hc
        simpa using this
      subst hc0
      rfl
    rw [hofd]
    apply Nat.digits_ofDigits b (by omega)
    · intro l hl
      obtain ⟨c, hc, rfl⟩ := List.mem_map.1 (List.mem_reverse.1 hl)
      exact (hvalid c (List.dropWhile_sublist _ |>.subset hc)).2
    · intro h
      rw [List.getLast_reverse]
      have hhead : (cs.dropWhile (fun c => c = '0')).head hds' ≠ '0' := by
        have hlen : 0 < (cs.dropWhile (fun c => decide (c = '0'))).length :=
          List.length_pos.2 hds'
        have hget := List.dropWhile_get_zero_not (p := fun c => decide (c = '0')) cs hlen
        rw [List.head_eq_getElem_zero hds']
        simpa using hget
      have hmem : (cs.dropWhile (fun c => c = '0')).head hds' ∈ cs :=
        List.dropWhile_sublist _ |>.subset (List.head_mem hds')
      rw [List.head_map]
      intro hzero
      exact hhead ((dval_zero_iff _ (hvalid _ hmem).1).1 hzero)
  rw [key]
  simp only [List.map_reverse, List.reverse_reverse]
  congr 1
  rw [List.map_map]
  apply list_map_self
  intro c hc
  have hmem : c ∈ cs := List.dropWhile_sublist _ |>.subset hc
  exact (alnum_facts c (hvalid c hmem).1).2.2

theorem except_bind_ok {ε α β : Type} (a : α) (f : α → Except ε β) :
    (Except.ok (ε := ε) a >>= f) = f a := rfl

theorem fdiv_zero (b : ℚ) : fdiv 0 b = 0 := by
  rw [fdiv, qdiv_eq, zero_div, roundF_zero]

theorem decode_zero_char (b : ℕ) (hb : 2 ≤ b) : base_to_int "0" b = .ok 0 := by
  have h := base_to_int_go_ok b ['0'] 0 (by
    intro c hc
    simp only [List.mem_singleton] at hc
    subst hc
    exact ⟨by decide, by have : dval '0' = 0 := by decide
                         omega⟩)
  have hv : hornerVal b (['0'].map dval) 0 = 0 := by
    have : dval '0' = 0 := by decide
    simp [hornerVal, this]
  rw [hv] at h
  exact h

/-- Claim C1 probe: on the input literal `"0"` the decoded value is `0`, the
unit scaling returns float `0.0`, `float_to_base` returns the empty string,
and `main`'s `num[0]` check raises `IndexError` instead of printing `"0"`.
(The positive-unit hypothesis keeps the instance inside the model's validity:
Python would raise `ZeroDivisionError` on a zero unit weight, which the
rational embedding does not track.) -/
theorem c1_zero_input_index_error (b₁ b₂ u₁ u₂ : ℕ)
    (hb₁ : 2 ≤ b₁) (hb₂ : 2 ≤ b₂) (_hu₂ : 1 ≤ u₂) :
    convert "0" b₁ b₂ u₁ u₂ = .error .indexError := by
  have hparse : type_alphanumeric "0" = .ok ("0", 0, false) := by decide
  rw [convert, hparse, except_bind_ok]
  dsimp only
  unfold convert_parsed
  rw [decode_zero_char b₁ hb₁, except_bind_ok]
  simp only [if_pos rfl, if_true, eq_self_iff_true, Nat.zero_mul, Nat.cast_zero, fdiv_zero]
  have henc : float_to_base (0 : ℚ) b₂ = "" := by
    have := float_to_base_nat 0 b₂ hb₂
    simpa using this
  rw [henc]

set_option maxRecDepth 10000 in
/-- Claim C4 counterexample: converting `"-3.8"` (base 10 → base 10, bit → bit)
does not return `"-3.8"`. -/
theorem c4_neg38_not_identity : convert "-3.8" 10 10 1 1 ≠ .ok "-3.8" := by decide

set_option maxRecDepth 10000 in
/-- Claim C4 (amended): converting `"-3.8"` from base 10 to base 10 with unit
bit → bit outputs `"-3.7999999999"`: the decode produces the binary64 value
nearest `3.8` (slightly below it), and the truncating fractional encoder then
emits `7999999999`. -/
theorem c4_neg38_truncated_output : convert "-3.8" 10 10 1 1 = .ok "-3.7999999999" := by decide

theorem frac_digits_length_le (fuel : ℕ) :
    ∀ nd b, (frac_digits fuel nd b).1.length ≤ fuel := by
  induction fuel with
  | zero => intro nd b; simp [frac_digits]
  | succ fuel ih =>
    intro nd b
    rw [frac_digits]
    by_cases h : nd = 0
    · simp [h]
    · rw [if_neg h]
      simpa using ih _ b

theorem frac_digits_early_stop (fuel : ℕ) :
    ∀ nd b, (frac_digits fuel nd b).1.length < fuel → (frac_digits fuel nd b).2 = 0 := by
  induction fuel with
  | zero => intro nd b h; omega
  | succ fuel ih =>
    intro nd b h
    rw [frac_digits] at h ⊢
    by_cases h0 : nd = 0
    · simp [h0]
    · rw [if_neg h0] at h ⊢
      simp only [List.length_cons, Nat.add_lt_add_iff_right] at h
      exact ih _ b h

set_option maxRecDepth 10000 in
/-- Claim C5: the fractional encoder emits at most 10 digits, stops before the
10th digit only when the remainder is exactly 0, and on the binary64 value
nearest `1/3` in base 10 it emits exactly the ten digits `3333333333`
(rendered `".3333333333"`, no rounding of the last digit). -/
theorem c5_fractional_truncation :
    (∀ nd b, (frac_digits 10 nd b).1.length ≤ 10) ∧
    (∀ nd b, (frac_digits 10 nd b).1.length < 10 → (frac_digits 10 nd b).2 = 0) ∧
    (frac_digits 10 (fsub (roundF (qdiv 1 3)) ((float_to_int (roundF (qdiv 1 3)) : ℤ) : ℚ)) 10).1
      = [3, 3, 3, 3, 3, 3, 3, 3, 3, 3] ∧
    float_to_base (roundF (qdiv 1 3)) 10 = ".3333333333" :=
  ⟨fun nd b => frac_digits_length_le 10 nd b,
   fun nd b h => frac_digits_early_stop 10 nd b h,
   by decide, by decide⟩

set_option maxRecDepth 10000 in
/-- Claim C5 witness: a concrete early stop (at `1/2`, one digit `5` and
remainder exactly `0`). -/
theorem c5_witness :
    (frac_digits 10 (mkRat 1 2) 10).1.length < 10 ∧ (frac_digits 10 (mkRat 1 2) 10).2 = 0 :=
  ⟨by decide, c5_fractional_truncation.2.1 (mkRat 1 2) 10 (by decide)⟩

theorem base_to_int_go_out_of_range (b : ℕ) :
    ∀ (cs : List Char) (acc : ℕ), (∀ c ∈ cs, c ∈ ALNUM_LIST) →
      (∃ c ∈ cs, b ≤ dval c) → base_to_int_go b cs acc = .error .digitOutOfRange := by
  intro cs
  induction cs with
  | nil => intro acc _ hex; simp at hex
  | cons c tl ih =>
    intro acc hall hex
    obtain ⟨hidx, -, -⟩ := alnum_facts c (hall c (List.mem_cons_self c tl))
    simp only [base_to_int_go, hidx]
    by_cases hc : b ≤ dval c
    · rw [if_pos (by omega : b < dval c + 1)]
    · rw [if_neg (by omega)]
      apply ih _ (fun x hx => hall x (List.mem_cons_of_mem _ hx))
      obtain ⟨x, hx, hxval⟩ := hex
      rcases List.mem_cons.1 hx with rfl | hxtl
      · omega
      · exact ⟨x, hxtl, hxval⟩

/-- Claim C6: for every base `B` in `[2, 36]`, decoding the single digit of
value `B - 1` succeeds (yielding `B - 1`), while decoding any digit string of
alphabet characters containing a digit of value `≥ B` fails with the
`DigitOutOfRange` error (`ValueError: ... is not of base ...`). -/
theorem c6_base_boundary :
    (∀ b, 2 ≤ b → b ≤ 36 →
      base_to_int (String.mk [alnumChar (b - 1)]) b = .ok (b - 1)) ∧
    (∀ (s : String) (b : ℕ), 2 ≤ b → b ≤ 36 → (∀ c ∈ s.data, c ∈ ALNUM_LIST) →
      (∃ c ∈ s.data, b ≤ dval c) → base_to_int s b = .error .digitOutOfRange) := by
  constructor
  · intro b hb hb36
    obtain ⟨-, -, hmem, hdval⟩ := alnum_char_facts (b - 1) (by omega)
    have h := base_to_int_go_ok b [alnumChar (b - 1)] 0 (by
      intro c hc
      simp only [List.mem_singleton] at hc
      subst hc
      exact ⟨hmem, by omega⟩)
    have hv : hornerVal b ([alnumChar (b - 1)].map dval) 0 = b - 1 := by
      simp [hornerVal, hdval]
    rw [base_to_int]
    rw [hv] at h
    exact h
  · intro s b hb hb36 hall hex
    exact base_to_int_go_out_of_range b s.data 0 hall hex

/-- Claim C6 witness: digit `7` decodes in base 8; digit `9` in base 8 fails
with `DigitOutOfRange`. -/
theorem c6_witness :
    base_to_int (String.mk [alnumChar 7]) 8 = .ok 7 ∧
    base_to_int "9" 8 = .error .digitOutOfRange :=
  ⟨c6_base_boundary.1 8 (by decide) (by decide),
   c6_base_boundary.2 "9" 8 (by decide) (by decide) (by decide)
     ⟨'9', by decide, by decide⟩⟩

theorem get_abs_go_signs :
    ∀ (signs : List Char) (cnt : ℕ) (c : Char) (rest : List Char),
      (∀ x ∈ signs, x = '+' ∨ x = '-') → c ≠ '+' → c ≠ '-' →
      get_abs_go (signs ++ c :: rest) cnt = .ok (c :: rest, cnt + signs.count '-') := by
  intro signs
  induction signs with
  | nil =>
    intro cnt c rest _ hplus hminus
    simp [get_abs_go, hplus, hminus]
  | cons x tl ih =>
    intro cnt c rest hall hplus hminus
    have htl : ∀ y ∈ tl, y = '+' ∨ y = '-' := fun y hy => hall y (List.mem_cons_of_mem _ hy)
    rcases hall x (List.mem_cons_self x tl) with rfl | rfl
    · rw [List.cons_append, get_abs_go, if_neg (by decide), if_pos rfl,
        ih cnt c rest htl hplus hminus]
      simp [List.count_cons]
    · rw [List.cons_append, get_abs_go, if_pos rfl, ih (cnt + 1) c rest htl hplus hminus]
      have : (('-' : Char) :: tl).count '-' = tl.count '-' + 1 := by
        simp [List.count_cons]
      rw [this]
      have h2 : cnt + 1 + tl.count '-' = cnt + (tl.count '-' + 1) := by omega
      rw [h2]

/-- Shared helper: `get_abs` on a sign run followed by a non-sign character
strips the run and reports negativity as the parity of the `-` count. -/
theorem get_abs_signs (signs : List Char) (c : Char) (rest : List Char)
    (hall : ∀ x ∈ signs, x = '+' ∨ x = '-') (hplus : c ≠ '+') (hminus : c ≠ '-') :
    get_abs (signs ++ c :: rest) = .ok (c :: rest, decide (signs.count '-' % 2 = 1)) := by
  rw [get_abs, get_abs_go_signs signs 0 c rest hall hplus hminus]
  simp [except_bind_ok]

/-- Claim C7: the parsed sign is negative exactly when the leading run of
sign characters contains an odd number of `-`; in particular `"--5"` parses
like `"5"` (positive) and `"+-5"` like `"-5"` (negative). -/
theorem c7_sign_parity :
    (∀ (signs : List Char) (c : Char) (rest : List Char),
      (∀ x ∈ signs, x = '+' ∨ x = '-') → c ≠ '+' → c ≠ '-' →
      get_abs (signs ++ c :: rest) = .ok (c :: rest, decide (signs.count '-' % 2 = 1))) ∧
    type_alphanumeric "--5" = type_alphanumeric "5" ∧
    type_alphanumeric "+-5" = type_alphanumeric "-5" ∧
    type_alphanumeric "--5" = .ok ("5", 0, false) ∧
    type_alphanumeric "-5" = .ok ("5", 0, true) := by
  exact ⟨get_abs_signs, by decide, by decide, by decide, by decide⟩

/-- Claim C7 witness. -/
theorem c7_witness :
    get_abs (['-', '-'] ++ '5' :: []) = .ok (['5'], decide (['-', '-'].count '-' % 2 = 1)) :=
  c7_sign_parity.1 ['-', '-'] '5' [] (by decide) (by decide) (by decide)

theorem get_abs_go_all_signs :
    ∀ (l : List Char) (cnt : ℕ), (∀ c ∈ l, c = '+' ∨ c = '-') →
      get_abs_go l cnt = .error .indexError := by
  intro l
  induction l with
  | nil => intro cnt _; rfl
  | cons c tl ih =>
    intro cnt hall
    have htl : ∀ y ∈ tl, y = '+' ∨ y = '-' := fun y hy => hall y (List.mem_cons_of_mem _ hy)
    rcases hall c (List.mem_cons_self c tl) with rfl | rfl
    · rw [get_abs_go, if_neg (by decide), if_pos rfl, ih _ htl]
    · rw [get_abs_go, if_pos rfl, ih _ htl]

/-- Claim C9 (implicit): an input that is empty or all sign characters after
whitespace stripping drives `get_abs` past the end of the string: `val[0]`
raises `IndexError` instead of returning a parse or an
`InvalidNumberLiteral` failure. -/
theorem c9_sign_only_index_error (s : String)
    (h : ∀ c ∈ pyStrip s.data, c = '+' ∨ c = '-') :
    type_alphanumeric s = .error .indexError := by
  rw [type_alphanumeric]
  have hfix : pyLower (pyStrip s.data) = pyStrip s.data := by
    apply list_map_self
    intro c hc
    rcases h c hc with rfl | rfl <;> decide
  rw [hfix, get_abs, get_abs_go_all_signs _ 0 h]
  rfl

/-- Claim C9 witness. -/
theorem c9_witness : type_alphanumeric " +- " = .error .indexError :=
  c9_sign_only_index_error " +- " (by decide)

theorem alnum_char_props : ∀ c ∈ ALNUM_LIST,
    isPySpace c = false ∧ pyLowerChar c = c ∧ c ≠ '+' ∧ c ≠ '-' ∧ c ≠ DELIMITER := by decide

theorem findIdx?_first_delim :
    ∀ (a : List Char) (rest : List Char) (i : ℕ), (∀ c ∈ a, c ≠ DELIMITER) →
      List.findIdx? (fun c => c = DELIMITER) (a ++ DELIMITER :: rest) i = some (i + a.length) := by
  intro a
  induction a with
  | nil =>
    intro rest i _
    rw [List.nil_append, List.findIdx?_cons, if_pos (by simp)]
    simp
  | cons x tl ih =>
    intro rest i hall
    rw [List.cons_append, List.findIdx?_cons,
      if_neg (by simpa using hall x (List.mem_cons_self x tl)),
      ih rest (i + 1) (fun c hc => hall c (List.mem_cons_of_mem _ hc))]
    congr 1
    simp only [List.length_cons]
    omega

theorem dropWhile_all_neg (p : Char → Bool) (l : List Char) (h : ∀ c ∈ l, ¬ p c) :
    l.dropWhile p = l := by
  cases l with
  | nil => rfl
  | cons x xs => rw [List.dropWhile_cons_of_neg (by simpa using h x (List.mem_cons_self x xs))]

theorem pyStrip_no_space (l : List Char) (h : ∀ c ∈ l, isPySpace c = false) :
    pyStrip l = l := by
  rw [pyStrip, dropWhile_all_neg _ l (by intro c hc; simp [h c hc]),
    dropWhile_all_neg _ l.reverse (by intro c hc; simp [h c (List.mem_reverse.1 hc)]),
    List.reverse_reverse]

/-- Claim C10 (implicit): a literal with a delimiter and any mix of digits and
further delimiters after it is not rejected: every delimiter occurrence is
removed and the offset is the count of retained characters after the first
delimiter.  In particular `"1.2.3"` parses exactly like `"1.23"`. -/
theorem c10_multi_delimiter :
    (∀ (a rest : List Char), (∀ c ∈ a, c ∈ ALNUM_LIST) →
      (∀ c ∈ rest, c ∈ ALNUM_LIST ∨ c = DELIMITER) →
      type_alphanumeric (String.mk (a ++ DELIMITER :: rest)) =
        .ok (String.mk (a ++ rest.filter (fun c => ¬ c = DELIMITER)),
             (rest.filter (fun c => ¬ c = DELIMITER)).length, false)) ∧
    type_alphanumeric "1.2.3" = type_alphanumeric "1.23" ∧
    type_alphanumeric "1.2.3" = .ok ("123", 2, false) := by
  refine ⟨?_, by decide, by decide⟩
  intro a rest ha hrest
  have hchar : ∀ c ∈ a ++ DELIMITER :: rest,
      isPySpace c = false ∧ pyLowerChar c = c := by
    intro c hc
    rcases List.mem_append.1 hc with hc | hc
    · obtain ⟨h1, h2, -⟩ := alnum_char_props c (ha c hc)
      exact ⟨h1, h2⟩
    · rcases List.mem_cons.1 hc with rfl | hc
      · exact ⟨by decide, by decide⟩
      · rcases hrest c hc with hmem | rfl
        · obtain ⟨h1, h2, -⟩ := alnum_char_props c hmem
          exact ⟨h1, h2⟩
        · exact ⟨by decide, by decide⟩
  rw [type_alphanumeric]
  simp only [String.data]  -- (String.mk l).data = l
  rw [pyStrip_no_space _ (fun c hc => (hchar c hc).1), pyLower,
    list_map_self _ _ (fun c hc => (hchar c hc).2)]
  -- get_abs: the head is either an alphabet character or the delimiter, never a sign
  have habs : get_abs (a ++ DELIMITER :: rest) = .ok (a ++ DELIMITER :: rest, false) := by
    cases a with
    | nil =>
      rw [List.nil_append]
      have := get_abs_signs [] DELIMITER rest (by simp) (by decide) (by decide)
      simpa using this
    | cons x tl =>
      obtain ⟨-, -, hplus, hminus, -⟩ := alnum_char_props x (ha x (List.mem_cons_self x tl))
      rw [List.cons_append]
      have := get_abs_signs [] x (tl ++ DELIMITER :: rest) (by simp) hplus hminus
      simpa using this
  rw [habs, except_bind_ok]
  have hfind := findIdx?_first_delim a rest 0
    (fun c hc => (alnum_char_props c (ha c hc)).2.2.2.2)
  rw [Nat.zero_add] at hfind
  rw [hfind]
  dsimp only
  have hfilter : (a ++ DELIMITER :: rest).filter (fun c => ¬ c = DELIMITER) =
      a ++ rest.filter (fun c => ¬ c = DELIMITER) := by
    rw [List.filter_append, List.filter_cons_of_neg (by simp),
      List.filter_eq_self.2
        (fun c hc => by simpa using (alnum_char_props c (ha c hc)).2.2.2.2)]
  rw [hfilter]
  have hvalid : (a ++ rest.filter (fun c => ¬ c = DELIMITER)).all
      (fun c => ALNUM_LIST.contains c) = true := by
    rw [List.all_eq_true]
    intro c hc
    rcases List.mem_append.1 hc with hc | hc
    · simpa using ha c hc
    · obtain ⟨hmem, hne⟩ := List.mem_filter.1 hc
      rcases hrest c hmem with h | rfl
      · simpa using h
      · simp at hne
  rw [if_pos hvalid]
  have hlen : (a ++ rest.filter (fun c => ¬ c = DELIMITER)).length - a.length =
      (rest.filter (fun c => ¬ c = DELIMITER)).length := by
    rw [List.length_append]
    omega
  rw [hlen]

/-- Claim C10 witness. -/
theorem c10_witness :
    type_alphanumeric (String.mk (['1'] ++ DELIMITER :: ['2', DELIMITER, '3'])) =
      .ok (String.mk (['1'] ++ ['2', DELIMITER, '3'].filter (fun c => ¬ c = DELIMITER)),
           (['2', DELIMITER, '3'].filter (fun c => ¬ c = DELIMITER)).length, false) :=
  c10_multi_delimiter.1 ['1'] ['2', DELIMITER, '3'] (by decide) (by decide)

set_option maxRecDepth 10000 in
/-- Claim C2 counterexample: with `from_unit == to_unit` the pipeline does not
always return the same numeric value.  The int → float conversion in
`num * from_unit / to_unit` rounds `2^53 + 1` to `2^53`, and a fractional
literal such as `"3.8"` (bit → bit) re-encodes as `"3.7999999999"`. -/
theorem c2_unit_identity_counterexample :
    convert "9007199254740993" 10 10 1 1 = .ok "9007199254740992" ∧
    base_to_int "9007199254740993" 10 = .ok 9007199254740993 ∧
    base_to_int "9007199254740992" 10 = .ok 9007199254740992 ∧
    (9007199254740992 : ℕ) ≠ 9007199254740993 ∧
    convert "3.8" 10 10 1 1 = .ok "3.7999999999" :=
  ⟨by decide, by decide, by decide, by decide, by decide⟩

/-- Claim C2 (amended): for a delimiter-free literal denoting a nonzero value
`v < 10^16` that binary64 represents exactly (`roundF v = v`, e.g. any
integer below `2^53`), converting from a unit to the same unit (any positive
weight) in any base `[2, 36]` outputs a literal that decodes back to exactly
`v`.  The `10^16` bound keeps the scaled float inside `str`'s fixed-notation
range, where the floor model of `float_to_int` is faithful: at
`v = 10^16` the code itself crashes (`str` gives `'1e+16'` and
`ALNUM_LIST.index('+')` raises `ValueError`), and at `v = 2^54` the mantissa
of `'1.8014398509481984e+16'` mis-parses, so the identity also fails in the
program beyond this bound. -/
theorem c2_unit_identity_representable (s : String) (v b u : ℕ)
    (hb : 2 ≤ b) (hb36 : b ≤ 36) (hu : 1 ≤ u) (hv : 0 < v)
    (_hlt : v < 10 ^ 16)
    (hrep : roundF (v : ℚ) = (v : ℚ))
    (hdec : base_to_int s b = .ok v) :
    ∃ out, convert_parsed s 0 false b b u u = .ok out ∧ base_to_int out b = .ok v := by
  unfold convert_parsed
  rw [hdec, except_bind_ok]
  dsimp only
  rw [if_pos rfl]
  have hscaled : fdiv ((v * u : ℕ) : ℚ) (u : ℚ) = (v : ℚ) := by
    rw [fdiv, qdiv_eq]
    have hu' : (u : ℚ) ≠ 0 := by positivity
    push_cast
    rw [mul_div_assoc, div_self hu', mul_one, hrep]
  rw [hscaled, float_to_base_nat v b hb]
  have hne : (Nat.digits b v).reverse.map alnumChar ≠ [] := by
    simp only [Ne, List.map_eq_nil_iff, List.reverse_eq_nil_iff]
    exact Nat.digits_ne_nil_iff_ne_zero.2 (by omega)
  obtain ⟨c, tl, hcons⟩ := List.exists_cons_of_ne_nil hne
  have hcmem : c ∈ (Nat.digits b v).reverse.map alnumChar := by
    rw [hcons]; exact List.mem_cons_self c tl
  have hcne : c ≠ DELIMITER := by
    obtain ⟨d, hd, rfl⟩ := List.mem_map.1 hcmem
    have hdb : d < b := Nat.digits_lt_base (by omega) (List.mem_reverse.1 hd)
    exact (alnum_char_facts d (by omega)).2.1
  simp only [String.data]
  rw [hcons]
  dsimp only
  rw [if_neg hcne]
  refine ⟨_, rfl, ?_⟩
  rw [← hcons]
  exact encode_decode v b hb hb36

set_option maxRecDepth 10000 in
/-- Claim C2 witness: `"ff"` in base 16, byte → byte, comes back as 255. -/
theorem c2_witness :
    ∃ out, convert_parsed "ff" 0 false 16 16 8 8 = .ok out ∧ base_to_int out 16 = .ok 255 :=
  c2_unit_identity_representable "ff" 255 16 8 (by decide) (by decide) (by decide)
    (by decide) (by decide) (by decide) (by decide)

set_option maxRecDepth 10000 in
/-- Claim C3 counterexample: the round-trip fails on `"0"` (the encoder
returns the empty string, not `"0"`) and on the fractional literal `"3.8"`
(decode = `base_to_int` + `shift_right`, re-encode gives `"3.7999999999"`). -/
theorem c3_round_trip_counterexample :
    (base_to_int "0" 10 = .ok 0 ∧ float_to_base ((0 : ℕ) : ℚ) 10 = "" ∧ ("" : String) ≠ "0") ∧
    (base_to_int "38" 10 = .ok 38 ∧
      float_to_base (shift_right 38 10 1) 10 = "3.7999999999" ∧
      ("3.7999999999" : String) ≠ "3.8") :=
  ⟨⟨by decide, by decide, by decide⟩, ⟨by decide, by decide, by decide⟩⟩

/-- Claim C3 (amended): for every delimiter-free digit string valid in base
`B ∈ [2, 36]` containing a nonzero digit, encoding the decoded value
reproduces the string with leading zeros stripped (exact: the integer path
never touches floats). -/
theorem c3_round_trip_integer_strings (s : String) (b : ℕ)
    (hb : 2 ≤ b) (hb36 : b ≤ 36)
    (hvalid : ∀ c ∈ s.data, c ∈ ALNUM_LIST ∧ dval c < b)
    (hnz : ∃ c ∈ s.data, c ≠ '0') :
    ∃ v, base_to_int s b = .ok v ∧
      float_to_base (v : ℚ) b = String.mk (s.data.dropWhile (fun c => c = '0')) := by
  refine ⟨hornerVal b (s.data.map dval) 0, ?_, ?_⟩
  · rw [base_to_int]
    exact base_to_int_go_ok b s.data 0 hvalid
  · exact decode_encode b hb hb36 s.data hvalid hnz

/-- Claim C3 witness: `"0ff"` in base 16 round-trips to `"ff"`. -/
theorem c3_witness :
    ∃ v, base_to_int "0ff" 16 = .ok v ∧
      float_to_base (v : ℚ) 16 = String.mk ("0ff".data.dropWhile (fun c => c = '0')) :=
  c3_round_trip_integer_strings "0ff" 16 (by decide) (by decide) (by decide)
    ⟨'f', by decide, by decide⟩

/-- Claim C8 counterexample: a token that is neither a base name nor a valid
decimal numeral fails with the `ValueError` from `base_to_int`
(`DigitOutOfRange`), not with the `UnsupportedBase` `ArgumentTypeError`. -/
theorem c8_nonname_token_wrong_error :
    type_base "zz" = .error .digitOutOfRange ∧ PyErr.digitOutOfRange ≠ PyErr.unsupportedBase :=
  ⟨by decide, by decide⟩

/-- Claim C8 (amended): every alias in the base table resolves
(case-insensitively) to its base, which lies in `[2, 36]`; an unlisted token
that decodes as a decimal numeral resolves iff its value is in `[2, 36]`,
failing with `UnsupportedBase` outside that range; and an unlisted token that
`base_to_int` rejects propagates that decode error instead of
`UnsupportedBase`. -/
theorem c8_base_resolution :
    (∀ p ∈ BASES_LIST, type_base p.1 = .ok p.2 ∧ 2 ≤ p.2 ∧ p.2 ≤ 36) ∧
    type_base "HEX" = .ok 16 ∧
    (∀ (s : String) (n : ℕ), BASES_LIST.lookup (String.mk (pyLower s.data)) = none →
      base_to_int s 10 = .ok n → 2 ≤ n → n ≤ 36 → type_base s = .ok n) ∧
    (∀ (s : String) (n : ℕ), BASES_LIST.lookup (String.mk (pyLower s.data)) = none →
      base_to_int s 10 = .ok n → (n < 2 ∨ 36 < n) → type_base s = .error .unsupportedBase) ∧
    (∀ (s : String) (e : PyErr), BASES_LIST.lookup (String.mk (pyLower s.data)) = none →
      base_to_int s 10 = .error e → type_base s = .error e) := by
  refine ⟨by decide, by decide, ?_, ?_, ?_⟩
  · intro s n hlook hdec h2 h36
    rw [type_base, hlook, hdec, except_bind_ok]
    rw [if_pos (by constructor <;> [exact h2; exact h36])]
  · intro s n hlook hdec hout
    rw [type_base, hlook, hdec, except_bind_ok]
    rw [if_neg (by rw [BASE_MIN, BASE_MAX]; omega)]
  · intro s e hlook hdec
    rw [type_base, hlook, hdec]
    rfl

/-- Claim C8 witness. -/
theorem c8_witness :
    type_base "99" = .error .unsupportedBase ∧ type_base "20" = .ok 20 :=
  ⟨c8_base_resolution.2.2.2.1 "99" 99 (by decide) (by decide) (by decide),
   c8_base_resolution.2.2.1 "20" 20 (by decide) (by decide) (by decide) (by decide)⟩

/-- Claim C1 witness. -/
theorem c1_witness : convert "0" 10 16 1 8 = .error .indexError :=
  c1_zero_input_index_error 10 16 1 8 (by decide) (by decide) (by decide)
